import Mathlib

/-!
Verification development for the markdown-table-fixer repository.

The parsing, validation and fixing engine is embedded shallowly: strings are
lists of characters, the scanners of the source become structurally recursive
Lean functions, and the stateful code paths of the command-line layer become
explicit state passing.  The tokenizer, display-width calculator, rule
disabler, configuration resolver and table fixer are not shipped in this
source snapshot (only their tests and callers are), so their definitions are
modelled from the specification, as marked in the doc comments.
-/

set_option maxRecDepth 4000

/-- Characters used frequently by the scanners, named once to keep the
character literals in a single place. -/
def bslChar : Char := '\\'

def pipeChar : Char := '|'

def dquoteChar : Char := Char.ofNat 34

def slashChar : Char := '/'

def nlChar : Char := Char.ofNat 10

def lbraceChar : Char := Char.ofNat 123

def rbraceChar : Char := Char.ofNat 125

/-- Whitespace as stripped by cell trimming (space, tab, newline, carriage
return). -/
def isWsChar (c : Char) : Bool :=
  c = ' ' || c = Char.ofNat 9 || c = nlChar || c = Char.ofNat 13

/-! ## Pipe tokenizer (Table Parser / Table Validator)

Modelled from the spec, section 4.2: a `|` is a delimiter unless the count of
consecutive backslashes immediately preceding it is odd; the HTML pipe entity
`&#124;` contains no literal `|` character, so it is never split. -/

/-- Modelled from the spec: the scanner underlying
`TableParser._split_by_unescaped_pipes` (module `table_parser`, absent from
this snapshot).  It walks the line left to right keeping the length of the
current run of consecutive backslashes; a pipe reached with an even run is a
delimiter and closes the current segment. -/
def splitPipesAux : List Char → Nat → List Char → List (List Char)
  | [], _, acc => [acc.reverse]
  | c :: rest, run, acc =>
    if c = pipeChar && run % 2 = 0 then
      acc.reverse :: splitPipesAux rest 0 []
    else
      splitPipesAux rest (if c = bslChar then run + 1 else 0) (c :: acc)

/-- Modelled from the spec: `split_by_unescaped_pipes`; an empty input yields
an empty sequence of segments. -/
def splitByUnescapedPipes (s : List Char) : List (List Char) :=
  if s.isEmpty then [] else splitPipesAux s 0 []

/-- Modelled from the spec: the scanner underlying
`TableValidator._get_actual_pipe_positions`, returning the offsets of the
delimiter pipes of a raw line. -/
def pipePosAux : List Char → Nat → Nat → List Nat
  | [], _, _ => []
  | c :: rest, i, run =>
    if c = pipeChar && run % 2 = 0 then
      i :: pipePosAux rest (i + 1) 0
    else
      pipePosAux rest (i + 1) (if c = bslChar then run + 1 else 0)

/-- Delimiter pipe offsets of a raw line. -/
def getActualPipePositions (s : List Char) : List Nat :=
  pipePosAux s 0 0

/-- The length of the run of consecutive backslashes at the end of a list,
computed by the same left fold the scanners use. -/
def bsRun (l : List Char) : Nat :=
  l.foldl (fun r c => if c = bslChar then r + 1 else 0) 0

/-- The count of consecutive backslashes closing a list, read off directly
from the reversed list. -/
def trailingBackslashes (l : List Char) : Nat :=
  (l.reverse.takeWhile (· = bslChar)).length

/-- Does the literal six-character entity `&#124;` occur at offset `j`? -/
def pipeEntityAt (s : List Char) (j : Nat) : Bool :=
  (s.drop j).take 6 = ['&', '#', '1', '2', '4', ';']

/-- Is offset `i` inside an occurrence of the literal entity `&#124;`? -/
def insidePipeEntity (s : List Char) (i : Nat) : Bool :=
  (List.range (i + 1)).any (fun j => pipeEntityAt s j && i < j + 6)

/-! ## Display-width calculator (Display-Width Calculator component)

Modelled from the spec, section 4.1: decode HTML character references first,
strip surrounding whitespace, then measure each code point against an
East-Asian-width-style table; if any non-printable code point remains, fall
back to the plain character count. -/

/-- Decimal digit test for entity scanning. -/
def isDecDigit (c : Char) : Bool := '0' ≤ c && c ≤ '9'

/-- Hexadecimal digit test for entity scanning. -/
def isHexDigit (c : Char) : Bool :=
  isDecDigit c || ('a' ≤ c && c ≤ 'f') || ('A' ≤ c && c ≤ 'F')

/-- Numeric value of a digit character. -/
def digitVal (c : Char) : Nat :=
  if isDecDigit c then c.toNat - '0'.toNat
  else if 'a' ≤ c && c ≤ 'f' then c.toNat - 'a'.toNat + 10
  else if 'A' ≤ c && c ≤ 'F' then c.toNat - 'A'.toNat + 10
  else 0

/-- Scan a maximal run of digits, accumulating the value in the given base.
Returns the value, the number of digits consumed and the unconsumed rest. -/
def scanDigits (pred : Char → Bool) (base : Nat) :
    List Char → Nat → Nat → Nat × Nat × List Char
  | [], acc, n => (acc, n, [])
  | c :: rest, acc, n =>
    if pred c then scanDigits pred base rest (acc * base + digitVal c) (n + 1)
    else (acc, n, c :: rest)

/-- Does the first list occur as a prefix of the second? -/
def startsWithL : List Char → List Char → Bool
  | [], _ => true
  | _ :: _, [] => false
  | a :: as, b :: bs => a = b && startsWithL as bs

/-- Modelled from the spec: recognise one HTML character reference right after
an ampersand.  Named references `&lt;` `&gt;` `&amp;` `&quot;` and numeric
references `&#NNN;` / `&#xHHH;` are supported; the terminating semicolon is
required.  Returns the decoded character and the number of characters
consumed after the `&`. -/
def matchEntity (l : List Char) : Option (Char × Nat) :=
  if startsWithL ['#', 'x'] l || startsWithL ['#', 'X'] l then
    match scanDigits isHexDigit 16 (l.drop 2) 0 0 with
    | (v, n, rest) =>
      if n = 0 then none
      else
        match rest with
        | c :: _ =>
          if c = ';' then
            if h : v.isValidChar then some (Char.ofNatAux v h, 2 + n + 1) else none
          else none
        | [] => none
  else if startsWithL ['#'] l then
    match scanDigits isDecDigit 10 (l.drop 1) 0 0 with
    | (v, n, rest) =>
      if n = 0 then none
      else
        match rest with
        | c :: _ =>
          if c = ';' then
            if h : v.isValidChar then some (Char.ofNatAux v h, 1 + n + 1) else none
          else none
        | [] => none
  else if startsWithL ['l', 't', ';'] l then some ('<', 3)
  else if startsWithL ['g', 't', ';'] l then some ('>', 3)
  else if startsWithL ['a', 'm', 'p', ';'] l then some ('&', 4)
  else if startsWithL ['q', 'u', 'o', 't', ';'] l then some (dquoteChar, 5)
  else none

/-- Fuel-indexed entity decoding scanner; the fuel is always instantiated with
the length of the input, which suffices because every step consumes at least
one character. -/
def decodeAux : Nat → List Char → List Char
  | 0, l => l
  | _ + 1, [] => []
  | fuel + 1, c :: rest =>
    if c = '&' then
      match matchEntity rest with
      | some (ch, k) => ch :: decodeAux fuel (rest.drop k)
      | none => c :: decodeAux fuel rest
    else c :: decodeAux fuel rest

/-- Modelled from the spec: decode HTML character references (named and
numeric, decimal or hexadecimal) into their literal code points. -/
def decodeEntities (l : List Char) : List Char :=
  decodeAux l.length l

/-- Strip leading and trailing whitespace. -/
def stripL (l : List Char) : List Char :=
  ((l.dropWhile isWsChar).reverse.dropWhile isWsChar).reverse

/-- Modelled from the spec: wide code points (CJK ideographs, most emoji,
enclosed-symbol ranges) in an East-Asian-width-style table. -/
def isWideChar (c : Char) : Bool :=
  let n := c.toNat
  (0x1100 ≤ n && n ≤ 0x115F) ||
  (0x231A ≤ n && n ≤ 0x231B) ||
  (0x2614 ≤ n && n ≤ 0x2615) ||
  (0x2648 ≤ n && n ≤ 0x2653) ||
  (n = 0x267F) || (n = 0x2693) || (n = 0x26A1) ||
  (0x26AA ≤ n && n ≤ 0x26AB) || (0x26BD ≤ n && n ≤ 0x26BE) ||
  (0x26C4 ≤ n && n ≤ 0x26C5) || (n = 0x26CE) || (n = 0x26D4) || (n = 0x26EA) ||
  (0x26F2 ≤ n && n ≤ 0x26F3) || (n = 0x26F5) || (n = 0x26FA) || (n = 0x26FD) ||
  (n = 0x2705) || (0x270A ≤ n && n ≤ 0x270B) || (n = 0x2728) ||
  (n = 0x274C) || (n = 0x274E) || (0x2753 ≤ n && n ≤ 0x2755) || (n = 0x2757) ||
  (0x2795 ≤ n && n ≤ 0x2797) || (n = 0x27B0) || (n = 0x27BF) ||
  (0x2B1B ≤ n && n ≤ 0x2B1C) || (n = 0x2B50) || (n = 0x2B55) ||
  (0x2E80 ≤ n && n ≤ 0x303E) || (0x3041 ≤ n && n ≤ 0x33FF) ||
  (0x3400 ≤ n && n ≤ 0x4DBF) || (0x4E00 ≤ n && n ≤ 0x9FFF) ||
  (0xA000 ≤ n && n ≤ 0xA4CF) || (0xAC00 ≤ n && n ≤ 0xD7A3) ||
  (0xF900 ≤ n && n ≤ 0xFAFF) || (0xFE30 ≤ n && n ≤ 0xFE4F) ||
  (0xFF00 ≤ n && n ≤ 0xFF60) || (0xFFE0 ≤ n && n ≤ 0xFFE6) ||
  (0x1F300 ≤ n && n ≤ 0x1F64F) || (0x1F680 ≤ n && n ≤ 0x1F6FF) ||
  (0x1F900 ≤ n && n ≤ 0x1F9FF) || (0x20000 ≤ n && n ≤ 0x2FFFD) ||
  (0x30000 ≤ n && n ≤ 0x3FFFD)

/-- Non-printable (control) code points, which trigger the fallback to a plain
character count. -/
def isNonPrintableChar (c : Char) : Bool :=
  c.toNat < 32 || (127 ≤ c.toNat && c.toNat ≤ 159)

/-- Width of one printable code point. -/
def charDisplayWidth (c : Char) : Nat :=
  if isWideChar c then 2 else 1

/-- Modelled from the spec: `TableCell.display_width` (module `models`, absent
from this snapshot).  Entities are decoded first, the content is measured
trimmed, and the presence of any non-printable code point makes the
calculator fall back to the character count of the decoded trimmed content
(the reading consistent with the invariants of spec section 8). -/
def displayWidthL (l : List Char) : Nat :=
  let d := stripL (decodeEntities l)
  if d.any isNonPrintableChar then d.length else (d.map charDisplayWidth).sum

/-- String-level display width. -/
def displayWidth (s : String) : Nat :=
  displayWidthL s.data

/-! ## Table fixer (Table Fixer component)

Modelled from the spec, section 4.7: per-column target widths are the maximum
display width of the column's cell content over all non-separator rows,
bounded below by 3; every cell is rewritten as its trimmed content padded
with trailing spaces to the target width. -/

/-- A parsed markdown table: the non-separator rows (header first) as lists
of cell contents, and the alignment markers of the separator row. -/
structure MarkdownTableM where
  rows : List (List (List Char))
  sepAlign : List (Bool × Bool)
  deriving DecidableEq

/-- Cell of a row at a column index, empty when the row is short. -/
def cellAt (r : List (List Char)) (i : Nat) : List Char :=
  r.getD i []

/-- Column count, read from the header row as in `MarkdownTable.column_count`. -/
def numCols (t : MarkdownTableM) : Nat :=
  (t.rows.headD []).length

/-- Maximum display width of a column over all non-separator rows. -/
def maxColWidth (t : MarkdownTableM) (i : Nat) : Nat :=
  t.rows.foldl (fun m r => max m (displayWidthL (cellAt r i))) 0

/-- Target display widths per column, bounded below by 3 for the separator. -/
def targetWidths (t : MarkdownTableM) : List Nat :=
  (List.range (numCols t)).map (fun i => max 3 (maxColWidth t i))

/-- Rewrite one cell: trimmed content plus trailing spaces up to the target
display width. -/
def fixCell (w : Nat) (c : List Char) : List Char :=
  stripL c ++ List.replicate (w - displayWidthL c) ' '

/-- Rewrite one row against the target widths. -/
def fixRow (ws : List Nat) (r : List (List Char)) : List (List Char) :=
  List.zipWith fixCell ws r

/-- Modelled from the spec: `TableFixer.fix` (module `table_fixer`, absent
from this snapshot), restricted to the table rewrite itself: every row is
rewritten to the per-column target widths; the separator alignment markers
are preserved. -/
def fixTable (t : MarkdownTableM) : MarkdownTableM :=
  { rows := t.rows.map (fixRow (targetWidths t)), sepAlign := t.sepAlign }

/-- Render one rewritten row as `| cell | cell |`. -/
def renderRow (cells : List (List Char)) : List Char :=
  '|' :: cells.foldr (fun c acc => ' ' :: (c ++ (' ' :: '|' :: acc))) []

/-- Render the separator cell for a target width, preserving the alignment
colons. -/
def renderSepCell (w : Nat) (a : Bool × Bool) : List Char :=
  (if a.1 then ':' else '-') :: (List.replicate (w - 2) '-' ++ [if a.2 then ':' else '-'])

/-- Render a table: header, separator row sized to the target widths, then
the data rows. -/
def renderTable (t : MarkdownTableM) : List (List Char) :=
  match t.rows with
  | [] => []
  | h :: rest =>
    renderRow h ::
      renderRow (List.zipWith renderSepCell (targetWidths t) t.sepAlign) ::
        rest.map renderRow

/-! ## Rule disabler (suppression interval state machine)

Modelled from the spec, section 4.5: scanning top to bottom, a disable
comment adds each named rule to the disabled set from its line onward and an
enable comment removes each named rule; a point query replays all
transitions with a line number at most the queried line. -/

/-- One parsed suppression comment. -/
inductive MdDirective where
  | disable (rules : List String)
  | enable (rules : List String)
  deriving DecidableEq

/-- `DisabledRulesState.disable_rules`: set union. -/
def disableRules (st rules : List String) : List String :=
  st ++ rules.filter (fun r => !st.contains r)

/-- `DisabledRulesState.enable_rules`: set difference. -/
def enableRules (st rules : List String) : List String :=
  st.filter (fun r => !rules.contains r)

/-- Apply one transition to the accumulated disabled set. -/
def applyDirective (st : List String) : MdDirective → List String
  | .disable rules => disableRules st rules
  | .enable rules => enableRules st rules

/-- `RuleDisabler.get_disabled_rules_at_line`: replay every transition whose
line number is at most the queried line. -/
def disabledRulesAtLine (ts : List (Nat × MdDirective)) (line : Nat) : List String :=
  (ts.filter (fun p => p.1 ≤ line)).foldl (fun st p => applyDirective st p.2) []

/-- `RuleDisabler.is_rule_disabled_at_line`. -/
def isRuleDisabledAtLine (ts : List (Nat × MdDirective)) (line : Nat) (rule : String) : Bool :=
  (disabledRulesAtLine ts line).contains rule

/-! ## Violations, the disabler filter, and the two call paths -/

/-- The closed enumeration of violation kinds (`models.ViolationType`). -/
inductive ViolationType where
  | misalignedPipe
  | missingSpaceLeft
  | missingSpaceRight
  | extraSpaceLeft
  | extraSpaceRight
  | inconsistentAlignment
  | malformedSeparator
  | lineTooLong
  deriving DecidableEq

/-- `ViolationType.to_md_rule`: all table-formatting variants map to MD060,
line length maps to MD013. -/
def ViolationType.toMdRule : ViolationType → String
  | .lineTooLong => "MD013"
  | _ => "MD060"

/-- A violation record (`models.TableViolation`). -/
structure TableViolationM where
  violationType : ViolationType
  lineNumber : Nat
  column : Nat
  tableStartLine : Nat
  deriving DecidableEq

/-- Derived rule code of a violation. -/
def TableViolationM.mdRule (v : TableViolationM) : String :=
  v.violationType.toMdRule

/-- Modelled from the spec: `rule_disabler.filter_violations_by_disabled_rules`
(module `rule_disabler`, absent from this snapshot): drop each violation
whose rule is disabled at its line. -/
def filterViolationsByDisabledRules (vs : List TableViolationM)
    (ts : List (Nat × MdDirective)) : List TableViolationM :=
  vs.filter (fun v => !isRuleDisabledAtLine ts v.lineNumber v.mdRule)

/-- Modelled from the spec: `TableValidator.validate` as observed by both
call paths — the raw per-table violation list passed through the rule
disabler's filter.  The raw check list is a parameter because the checks
themselves do not affect the cross-path property. -/
def validateFiltered (raw : MarkdownTableM → List TableViolationM)
    (ts : List (Nat × MdDirective)) (t : MarkdownTableM) : List TableViolationM :=
  filterViolationsByDisabledRules (raw t) ts

/-- The lint path (`cli._process_file`): validate every table, extending one
accumulated list. -/
def lintPathViolations (raw : MarkdownTableM → List TableViolationM)
    (ts : List (Nat × MdDirective)) (tables : List MarkdownTableM) : List TableViolationM :=
  tables.foldl (fun acc t => acc ++ validateFiltered raw ts t) []

/-- The PR-fix path (`pr_fixer.PRFixer`): per-table filtered violations. -/
def prFixTableViolations (raw : MarkdownTableM → List TableViolationM)
    (ts : List (Nat × MdDirective)) (t : MarkdownTableM) : List TableViolationM :=
  validateFiltered raw ts t

/-- The PR-fix path's `has_issues` flag: some table has a violation left
after filtering. -/
def prFixHasIssues (raw : MarkdownTableM → List TableViolationM)
    (ts : List (Nat × MdDirective)) (tables : List MarkdownTableM) : Bool :=
  tables.any (fun t => !(prFixTableViolations raw ts t).isEmpty)

/-! ## JSONC comment stripper (Config Resolver helper)

Modelled from the spec, section 4.4: a line-oriented scanner strips trailing
`//` comments, tracking whether it is inside a double-quoted string and
honoring backslash escapes; the in-string state is local to each line. -/

/-- One line of the stripper (`FileFixer._remove_jsonc_comments`, module
`table_fixer`, absent from this snapshot): copy characters, consuming
escape pairs inside strings, and cut the line at the first `//` reached
outside a string. -/
def removeJsoncAux : List Char → Bool → List Char
  | [], _ => []
  | c :: rest, inStr =>
    if inStr then
      if c = bslChar then
        match rest with
        | [] => [c]
        | d :: rest2 => c :: d :: removeJsoncAux rest2 true
      else if c = dquoteChar then c :: removeJsoncAux rest false
      else c :: removeJsoncAux rest true
    else
      if c = slashChar then
        match rest with
        | d :: _ => if d = slashChar then [] else c :: removeJsoncAux rest false
        | [] => [c]
      else if c = dquoteChar then c :: removeJsoncAux rest true
      else c :: removeJsoncAux rest false

/-- Strip one line. -/
def stripJsoncLine (l : List Char) : List Char :=
  removeJsoncAux l false

/-- `FileFixer._remove_jsonc_comments`: split on newlines, strip each line,
rejoin. -/
def removeJsoncComments (content : List Char) : List Char :=
  List.intercalate [nlChar] ((content.splitOn nlChar).map stripJsoncLine)

/-- The scanner's own per-line in-string state at a character offset: the
same walk as `removeJsoncAux` (comment-aware, escape pairs consumed
together), answering whether the offset lies inside a double-quoted string
opened on this line. -/
def lineInString : List Char → Bool → Nat → Bool
  | _, st, 0 => st
  | [], st, _ + 1 => st
  | c :: rest, inStr, i + 1 =>
    if inStr then
      if c = bslChar then
        match rest, i with
        | [], _ => true
        | _ :: _, 0 => true
        | _ :: rest2, j + 1 => lineInString rest2 true j
      else if c = dquoteChar then lineInString rest false i
      else lineInString rest true i
    else
      if c = slashChar then
        match rest with
        | d :: _ => if d = slashChar then false else lineInString rest false i
        | [] => false
      else if c = dquoteChar then lineInString rest true i
      else lineInString rest false i

/-- Cross-line lexical in-string state at a character offset of the whole
content: plain double-quoted string tracking with backslash escapes, no
comment or line handling.  This is the lexical notion of "inside a
double-quoted string value" for arbitrary content. -/
def plainInString : List Char → Bool → Nat → Bool
  | _, st, 0 => st
  | [], st, _ + 1 => st
  | c :: rest, inStr, i + 1 =>
    if inStr then
      if c = bslChar then
        match rest, i with
        | [], _ => true
        | _ :: _, 0 => true
        | _ :: rest2, j + 1 => plainInString rest2 true j
      else if c = dquoteChar then plainInString rest false i
      else plainInString rest true i
    else
      if c = dquoteChar then plainInString rest true i
      else plainInString rest false i

/-! ## Configuration resolver (Config Resolver component)

Modelled from the spec, section 4.4: candidate config files are checked in a
fixed preference order in the file's directory and then in ancestors, with
the search bounded to 5 levels; a rule is "disabling" only on a literal
false value; malformed or unreadable config falls open to enabled. -/

/-- JSON-like configuration values. -/
inductive JsonVal where
  | jnull
  | jbool (b : Bool)
  | jnum
  | jstr (s : List Char)
  | jobj (fields : List (List Char × JsonVal))
  | jarr (elems : List JsonVal)

/-- JSON whitespace. -/
def isJsonWs (c : Char) : Bool :=
  c = ' ' || c = Char.ofNat 9 || c = nlChar || c = Char.ofNat 13

/-- Skip JSON whitespace. -/
def skipJsonWs (l : List Char) : List Char :=
  l.dropWhile isJsonWs

/-- Scan a JSON string body after the opening quote; returns raw body and
rest after the closing quote. -/
def parseJsonString : List Char → Option (List Char × List Char)
  | [] => none
  | c :: rest =>
    if c = dquoteChar then some ([], rest)
    else if c = bslChar then
      match rest with
      | [] => none
      | d :: rest2 =>
        match parseJsonString rest2 with
        | some (s, r) => some (c :: d :: s, r)
        | none => none
    else
      match parseJsonString rest with
      | some (s, r) => some (c :: s, r)
      | none => none

/-- Characters allowed in a (simplified) JSON number token. -/
def isJsonNumChar (c : Char) : Bool :=
  isDecDigit c || c = '-' || c = '+' || c = '.' || c = 'e' || c = 'E'

/-- Consume a JSON number token. -/
def skipJsonNumber (l : List Char) : Option (List Char) :=
  let ds := l.takeWhile isJsonNumChar
  if ds.isEmpty then none else some (l.drop ds.length)

/-- Parser mode: a value, the members of an object, or the elements of an
array. -/
inductive JMode where
  | val
  | obj (acc : List (List Char × JsonVal))
  | arr (acc : List JsonVal)

/-- Fuel-indexed recursive-descent JSON parser.  Returns the parsed value and
the unconsumed rest, or `none` on a syntax error (including fuel
exhaustion, which the chosen fuel makes unreachable for parseable input). -/
def parseJ : Nat → JMode → List Char → Option (JsonVal × List Char)
  | 0, _, _ => none
  | fuel + 1, .val, l =>
    match skipJsonWs l with
    | [] => none
    | c :: rest =>
      if c = dquoteChar then
        match parseJsonString rest with
        | some (s, r) => some (.jstr s, r)
        | none => none
      else if c = lbraceChar then parseJ fuel (.obj []) (skipJsonWs rest)
      else if c = '[' then parseJ fuel (.arr []) (skipJsonWs rest)
      else if c = 't' then
        match rest with
        | 'r' :: 'u' :: 'e' :: r => some (.jbool true, r)
        | _ => none
      else if c = 'f' then
        match rest with
        | 'a' :: 'l' :: 's' :: 'e' :: r => some (.jbool false, r)
        | _ => none
      else if c = 'n' then
        match rest with
        | 'u' :: 'l' :: 'l' :: r => some (.jnull, r)
        | _ => none
      else
        match skipJsonNumber (c :: rest) with
        | some r => some (.jnum, r)
        | none => none
  | fuel + 1, .obj acc, l =>
    match l with
    | [] => none
    | c :: rest =>
      if c = rbraceChar then some (.jobj acc.reverse, rest)
      else if c = dquoteChar then
        match parseJsonString rest with
        | none => none
        | some (key, r1) =>
          match skipJsonWs r1 with
          | ':' :: r2 =>
            match parseJ fuel .val r2 with
            | none => none
            | some (v, r3) =>
              match skipJsonWs r3 with
              | ',' :: r4 => parseJ fuel (.obj ((key, v) :: acc)) (skipJsonWs r4)
              | c2 :: r4 =>
                if c2 = rbraceChar then some (.jobj ((key, v) :: acc).reverse, r4)
                else none
              | [] => none
          | _ => none
      else none
  | fuel + 1, .arr acc, l =>
    match l with
    | [] => none
    | c :: rest =>
      if c = ']' then some (.jarr acc.reverse, rest)
      else
        match parseJ fuel .val (c :: rest) with
        | none => none
        | some (v, r1) =>
          match skipJsonWs r1 with
          | ',' :: r2 => parseJ fuel (.arr (v :: acc)) (skipJsonWs r2)
          | c2 :: r2 => if c2 = ']' then some (.jarr (v :: acc).reverse, r2) else none
          | [] => none

/-- Parse a whole JSON document; trailing non-whitespace is a syntax error. -/
def parseJsonTop (content : List Char) : Option JsonVal :=
  match parseJ (2 * content.length + 4) .val content with
  | some (v, rest) => if (skipJsonWs rest).isEmpty then some v else none
  | none => none

/-- Modelled from the spec: minimal YAML-style mapping reader for
`.markdownlint.yaml` / `.yml`: one `key: value` per line, comment and blank
lines skipped; the literal values `false`, `False` and `no` disable. -/
def parseYamlLine (l : List Char) : Option (List Char × JsonVal) :=
  let key := l.takeWhile (fun c => !(c = ':'))
  match l.drop key.length with
  | ':' :: rest =>
    let v := stripL rest
    if v = "false".data || v = "False".data || v = "no".data then
      some (stripL key, .jbool false)
    else some (stripL key, .jbool true)
  | _ => none

/-- Fold the YAML-style lines, failing on a non-comment line without `:`. -/
def parseYamlLines : List (List Char) → Option (List (List Char × JsonVal))
  | [] => some []
  | l :: rest =>
    if (stripL l).isEmpty || (stripL l).headD ' ' = '#' then parseYamlLines rest
    else
      match parseYamlLine l with
      | none => none
      | some kv =>
        match parseYamlLines rest with
        | some fields => some (kv :: fields)
        | none => none

/-- YAML-style config parse. -/
def parseYamlish (content : List Char) : Option (List (List Char × JsonVal)) :=
  parseYamlLines (content.splitOn nlChar)

/-- The candidate config file names, in preference order. -/
def CONFIG_FILE_NAMES : List String :=
  [".markdownlint.json", ".markdownlint.jsonc", ".markdownlint.yaml",
   ".markdownlint.yml", ".markdownlintrc"]

/-- Is the name parsed as YAML rather than JSON/JSONC? -/
def isYamlName (n : String) : Bool :=
  n = ".markdownlint.yaml" || n = ".markdownlint.yml"

/-- Parse one config file's content according to its name; `none` on any
syntax error. -/
def parseConfigContent (name : String) (content : List Char) :
    Option (List (List Char × JsonVal)) :=
  if isYamlName name then parseYamlish content
  else
    match parseJsonTop (removeJsoncComments content) with
    | some (.jobj fields) => some fields
    | _ => none

/-- A directory: file names with readable content, or `none` when the file
exists but cannot be read. -/
def DirFiles : Type := List (String × Option (List Char))

/-- First config file (in preference order) present in a directory. -/
def firstConfigHit : List String → DirFiles → Option (String × Option (List Char))
  | [], _ => none
  | n :: ns, d =>
    match d.lookup n with
    | some c => some (n, c)
    | none => firstConfigHit ns d

/-- First directory of the chain containing a config file. -/
def findConfigChain : List DirFiles → Option (String × Option (List Char))
  | [] => none
  | d :: rest =>
    match firstConfigHit CONFIG_FILE_NAMES d with
    | some hit => some hit
    | none => findConfigChain rest

/-- The depth bound of the ancestor search. -/
def CONFIG_SEARCH_DEPTH : Nat := 5

/-- Look up the rule's field in a parsed config. -/
def lookupRule : List (List Char × JsonVal) → String → Option JsonVal
  | [], _ => none
  | (k, v) :: rest, rule => if k = rule.data then some v else lookupRule rest rule

/-- Modelled from the spec: the `FileFixer._mdXXX_enabled` resolution.  The
chain lists the directory of the target file first, then its ancestors in
order; the search is bounded to `CONFIG_SEARCH_DEPTH` levels; unreadable or
unparseable config, a missing rule or a non-false value all leave the rule
enabled. -/
def ruleEnabled (dirs : List DirFiles) (rule : String) : Bool :=
  match findConfigChain (dirs.take CONFIG_SEARCH_DEPTH) with
  | none => true
  | some (_, none) => true
  | some (name, some content) =>
    match parseConfigContent name content with
    | none => true
    | some fields =>
      match lookupRule fields rule with
      | some (.jbool false) => false
      | _ => true

/-! ## The per-file processing entry point (`cli._process_file`)

Translated from `src/markdown_table_fixer/cli.py`: parse, count tables,
validate each table extending the accumulated list, optionally fix; the
three `except` clauses convert every raised error into a message recorded on
the result.  The fallible stages are parameters because the engine modules
are absent from this snapshot. -/

/-- The exception taxonomy visible in `_process_file`'s handlers. -/
inductive PyErr where
  | tableParse (msg : String)
  | fileAccess (msg : String)
  | other (msg : String)
  deriving DecidableEq

/-- The message recorded for each handler of `_process_file`. -/
def errMsg : PyErr → String
  | .tableParse m => "Parse error: " ++ m
  | .fileAccess m => "Access error: " ++ m
  | .other m => "Unexpected error: " ++ m

/-- `models.FileResult`, the fields `_process_file` touches. -/
structure FileResultM where
  tablesFound : Nat
  violations : List TableViolationM
  fixesApplied : Nat
  error : Option String
  deriving DecidableEq

/-- The validation loop of `_process_file`: violations accumulate table by
table; an exception stops the loop, keeping what was accumulated. -/
def runValidations (validate : MarkdownTableM → Except PyErr (List TableViolationM)) :
    List MarkdownTableM → List TableViolationM → List TableViolationM × Option PyErr
  | [], acc => (acc, none)
  | t :: rest, acc =>
    match validate t with
    | .error e => (acc, some e)
    | .ok vs => runValidations validate rest (acc ++ vs)

/-- `cli._process_file`: total at its boundary; every stage failure is caught
and recorded in the `error` field of the returned result. -/
def processFile (parse : Except PyErr (List MarkdownTableM))
    (validate : MarkdownTableM → Except PyErr (List TableViolationM))
    (fixFile : Except PyErr Nat) (doFix : Bool) : FileResultM :=
  match parse with
  | .error e => { tablesFound := 0, violations := [], fixesApplied := 0, error := some (errMsg e) }
  | .ok tables =>
    match runValidations validate tables [] with
    | (vs, some e) =>
      { tablesFound := tables.length, violations := vs, fixesApplied := 0,
        error := some (errMsg e) }
    | (vs, none) =>
      if doFix then
        match fixFile with
        | .error e =>
          { tablesFound := tables.length, violations := vs, fixesApplied := 0,
            error := some (errMsg e) }
        | .ok n =>
          { tablesFound := tables.length, violations := vs, fixesApplied := n,
            error := none }
      else
        { tablesFound := tables.length, violations := vs, fixesApplied := 0,
          error := none }

/-- Does the first list occur as a contiguous subsequence of the second? -/
def containsSeq (needle : List Char) : List Char → Bool
  | [] => startsWithL needle []
  | c :: rest => startsWithL needle (c :: rest) || containsSeq needle rest

/-- The multiline JSONC content of the stripper's own test suite: a `//`
inside a double-quoted string value that spans three lines. -/
def multilineJsoncDemo : List Char :=
  "\x7b\"key\": \"line1\nline2 // not a comment\nline3\"\x7d".data

/-! # Theorems -/

theorem splitPipesAux_ne_nil (rest : List Char) (run : Nat) (acc : List Char) :
    splitPipesAux rest run acc ≠ [] := by
  induction rest generalizing run acc with
  | nil => simp [splitPipesAux]
  | cons c r ih =>
    simp only [splitPipesAux]
    split
    · simp
    · exact ih _ _

theorem intercalate_cons_ne (sep a : List Char) (l : List (List Char)) (h : l ≠ []) :
    List.intercalate sep (a :: l) = a ++ sep ++ List.intercalate sep l := by
  cases l with
  | nil => exact absurd rfl h
  | cons b t => simp [List.intercalate, List.intersperse]

theorem splitPipesAux_intercalate :
    ∀ (rest : List Char) (run : Nat) (acc : List Char),
      List.intercalate [pipeChar] (splitPipesAux rest run acc) = acc.reverse ++ rest := by
  intro rest
  induction rest with
  | nil =>
    intro run acc
    simp [splitPipesAux, List.intercalate, List.intersperse]
  | cons c r ih =>
    intro run acc
    simp only [splitPipesAux]
    split
    · rename_i hcond
      rw [intercalate_cons_ne _ _ _ (splitPipesAux_ne_nil r 0 []), ih 0 []]
      have hc : c = pipeChar := by
        have := (Bool.and_eq_true _ _).mp hcond
        exact decide_eq_true_eq.mp this.1
      simp [hc]
    · rw [ih _ (c :: acc)]
      simp

theorem splitPipesAux_length :
    ∀ (rest : List Char) (run : Nat) (acc : List Char) (i : Nat),
      (splitPipesAux rest run acc).length = (pipePosAux rest i run).length + 1 := by
  intro rest
  induction rest with
  | nil => intro run acc i; simp [splitPipesAux, pipePosAux]
  | cons c r ih =>
    intro run acc i
    simp only [splitPipesAux, pipePosAux]
    split
    · simp only [List.length_cons, ih 0 [] (i + 1)]
    · exact ih _ (c :: acc) (i + 1)

/-- Claim C9: for a non-empty line with `k` delimiter pipes the tokenizer
returns exactly `k + 1` segments, and joining the segments back with `|`
reproduces the original line byte for byte (so the segments preserve the
exact original substrings); the empty string yields an empty sequence. -/
theorem claim_C9 :
    (∀ s : List Char, s ≠ [] →
      (splitByUnescapedPipes s).length = (getActualPipePositions s).length + 1 ∧
      List.intercalate [pipeChar] (splitByUnescapedPipes s) = s) ∧
    splitByUnescapedPipes [] = [] := by
  constructor
  · intro s hs
    unfold splitByUnescapedPipes getActualPipePositions
    rw [if_neg (by simpa using hs)]
    exact ⟨splitPipesAux_length s 0 [] 0, by simpa using splitPipesAux_intercalate s 0 []⟩
  · rfl

/-- Witness for claim C9 at a concrete line. -/
theorem claim_C9_witness :
    (splitByUnescapedPipes "| A | B |".data).length =
      (getActualPipePositions "| A | B |".data).length + 1 ∧
    List.intercalate [pipeChar] (splitByUnescapedPipes "| A | B |".data) =
      "| A | B |".data :=
  claim_C9.1 "| A | B |".data (by decide)

theorem pipePosAux_mem (rest : List Char) :
    ∀ (i run k : Nat),
      k ∈ pipePosAux rest i run ↔
        ∃ d, d < rest.length ∧ k = i + d ∧ rest.get? d = some pipeChar ∧
          ((rest.take d).foldl (fun r c => if c = bslChar then r + 1 else 0) run) % 2 = 0 := by
  induction rest with
  | nil => intro i run k; simp [pipePosAux]
  | cons c r ih =>
    intro i run k
    simp only [pipePosAux]
    split
    · rename_i hcond
      rw [Bool.and_eq_true, decide_eq_true_eq, decide_eq_true_eq] at hcond
      constructor
      · intro hk
        rcases List.mem_cons.mp hk with hk | hk
        · exact ⟨0, by simp, by omega, by simp [hcond.1], by simpa using hcond.2⟩
        · obtain ⟨d, hd, hkd, hg, he⟩ := (ih (i + 1) 0 k).mp hk
          refine ⟨d + 1, by simpa using hd, by omega, by simpa using hg, ?_⟩
          simpa [List.take_succ_cons, hcond.1, pipeChar, bslChar] using he
      · rintro ⟨d, hd, hkd, hg, he⟩
        cases d with
        | zero => exact List.mem_cons.mpr (Or.inl (by omega))
        | succ d =>
          refine List.mem_cons.mpr (Or.inr ((ih (i + 1) 0 k).mpr ⟨d, ?_, by omega, ?_, ?_⟩))
          · simpa using hd
          · simpa using hg
          · simpa [List.take_succ_cons, hcond.1, pipeChar, bslChar] using he
    · rename_i hcond
      rw [ih (i + 1) (if c = bslChar then run + 1 else 0) k]
      constructor
      · rintro ⟨d, hd, hkd, hg, he⟩
        exact ⟨d + 1, by simpa using hd, by omega, by simpa using hg,
          by simpa [List.take_succ_cons] using he⟩
      · rintro ⟨d, hd, hkd, hg, he⟩
        cases d with
        | zero =>
          exfalso
          apply hcond
          simp only [List.get?] at hg
          have hc : c = pipeChar := by injection hg
          have hrun : run % 2 = 0 := by simpa using he
          simp [hc, hrun]
        | succ d =>
          exact ⟨d, by simpa using hd, by omega, by simpa using hg,
            by simpa [List.take_succ_cons] using he⟩

theorem getActualPipePositions_mem (s : List Char) (i : Nat) :
    i ∈ getActualPipePositions s ↔
      s.get? i = some pipeChar ∧ bsRun (s.take i) % 2 = 0 := by
  unfold getActualPipePositions bsRun
  rw [pipePosAux_mem]
  constructor
  · rintro ⟨d, hd, hkd, hg, he⟩
    have : d = i := by omega
    subst this
    exact ⟨hg, he⟩
  · rintro ⟨hg, he⟩
    have hi : i < s.length := by
      by_contra h
      rw [List.get?_eq_none.mpr (by omega)] at hg
      cases hg
    exact ⟨i, hi, by omega, hg, he⟩

theorem bsRun_eq_trailingBackslashes (l : List Char) :
    bsRun l = trailingBackslashes l := by
  induction l using List.reverseRecOn with
  | nil => rfl
  | append_singleton l c ih =>
    unfold bsRun trailingBackslashes at *
    rw [List.foldl_append, List.reverse_append]
    by_cases hc : c = bslChar
    · simp [hc, List.takeWhile_cons, ih]
    · simp [hc, List.takeWhile_cons]

theorem not_insidePipeEntity_of_pipe (s : List Char) (i : Nat)
    (hg : s.get? i = some pipeChar) : insidePipeEntity s i = false := by
  unfold insidePipeEntity
  rw [List.any_eq_false]
  intro j hj hboth
  rw [Bool.and_eq_true, decide_eq_true_eq] at hboth
  obtain ⟨hent, hlt⟩ := hboth
  rw [List.mem_range] at hj
  unfold pipeEntityAt at hent
  rw [decide_eq_true_eq] at hent
  have hm : i - j < 6 := by omega
  have hij : i = j + (i - j) := by omega
  have h1 : s.get? i = (s.drop j).get? (i - j) := by
    rw [List.get?_drop, ← hij]
  have h2 : (s.drop j).get? (i - j) = ((s.drop j).take 6).get? (i - j) :=
    (List.get?_take hm).symm
  rw [h1, h2, hent] at hg
  interval_cases h : (i - j) <;> exact absurd hg (by decide)

/-- Claim C3: a pipe at offset `i` is a delimiter exactly when the count of
consecutive backslashes immediately preceding it is even and it is not part
of the literal entity `&#124;` (the entity text contains no literal pipe, so
the last condition never excludes a pipe character); the scenario line
tokenizes to delimiter offsets `[0, 7, 22, 29]`. -/
theorem claim_C3 :
    (∀ (s : List Char) (i : Nat),
      i ∈ getActualPipePositions s ↔
        s.get? i = some pipeChar ∧ trailingBackslashes (s.take i) % 2 = 0 ∧
          insidePipeEntity s i = false) ∧
    getActualPipePositions "| Col1 | Data \\| here | Col3 |".data = [0, 7, 22, 29] := by
  constructor
  · intro s i
    rw [getActualPipePositions_mem, ← bsRun_eq_trailingBackslashes]
    constructor
    · rintro ⟨hg, he⟩
      exact ⟨hg, he, not_insidePipeEntity_of_pipe s i hg⟩
    · rintro ⟨hg, he, _⟩
      exact ⟨hg, he⟩
  · decide

theorem contains_eq_decide_mem (l : List String) (r : String) :
    l.contains r = decide (r ∈ l) := by
  induction l with
  | nil => simp
  | cons a t ih => simp [List.contains_cons, ih]

theorem mem_disableRules (st rules : List String) (r : String) :
    r ∈ disableRules st rules ↔ r ∈ st ∨ r ∈ rules := by
  unfold disableRules
  simp only [List.mem_append, List.mem_filter, contains_eq_decide_mem]
  constructor
  · rintro (h | ⟨h, _⟩)
    · exact Or.inl h
    · exact Or.inr h
  · rintro (h | h)
    · exact Or.inl h
    · by_cases hst : r ∈ st
      · exact Or.inl hst
      · exact Or.inr ⟨h, by simp [hst]⟩

theorem mem_enableRules (st rules : List String) (r : String) :
    r ∈ enableRules st rules ↔ r ∈ st ∧ r ∉ rules := by
  unfold enableRules
  simp [List.mem_filter, contains_eq_decide_mem]

theorem contains_disableRules (st rules : List String) (r : String) :
    (disableRules st rules).contains r = (st.contains r || rules.contains r) := by
  simp [contains_eq_decide_mem, mem_disableRules, Bool.decide_or]

theorem contains_enableRules (st rules : List String) (r : String) :
    (enableRules st rules).contains r = (st.contains r && !rules.contains r) := by
  simp only [contains_eq_decide_mem, mem_enableRules]
  by_cases h1 : r ∈ st <;> by_cases h2 : r ∈ rules <;> simp [h1, h2]

theorem disabledRulesAtLine_append (ts : List (Nat × MdDirective)) (l : Nat)
    (d : MdDirective) (L : Nat) (h : l ≤ L) :
    disabledRulesAtLine (ts ++ [(l, d)]) L =
      applyDirective (disabledRulesAtLine ts L) d := by
  unfold disabledRulesAtLine
  rw [List.filter_append, List.foldl_append]
  simp [h]

theorem isRuleDisabledAtLine_append_disable (ts : List (Nat × MdDirective))
    (l : Nat) (rules : List String) (L : Nat) (r : String) (h : l ≤ L) :
    isRuleDisabledAtLine (ts ++ [(l, .disable rules)]) L r =
      (isRuleDisabledAtLine ts L r || rules.contains r) := by
  unfold isRuleDisabledAtLine
  rw [disabledRulesAtLine_append ts l _ L h]
  exact contains_disableRules _ rules r

theorem isRuleDisabledAtLine_append_enable (ts : List (Nat × MdDirective))
    (l : Nat) (rules : List String) (L : Nat) (r : String) (h : l ≤ L) :
    isRuleDisabledAtLine (ts ++ [(l, .enable rules)]) L r =
      (isRuleDisabledAtLine ts L r && !rules.contains r) := by
  unfold isRuleDisabledAtLine
  rw [disabledRulesAtLine_append ts l _ L h]
  exact contains_enableRules _ rules r

/-- Claim C5: suppression is cumulative top to bottom.  Appending a disable
transition adds its named rules to the disabled set at every covered line;
appending an enable transition removes exactly its named rules; disabling
MD013 and MD060 and then enabling only MD013 leaves MD060 disabled (and
MD013 enabled) at every subsequent line. -/
theorem claim_C5 :
    (∀ (ts : List (Nat × MdDirective)) (l : Nat) (rules : List String)
        (L : Nat) (r : String), l ≤ L →
        isRuleDisabledAtLine (ts ++ [(l, .disable rules)]) L r =
          (isRuleDisabledAtLine ts L r || rules.contains r)) ∧
    (∀ (ts : List (Nat × MdDirective)) (l : Nat) (rules : List String)
        (L : Nat) (r : String), l ≤ L →
        isRuleDisabledAtLine (ts ++ [(l, .enable rules)]) L r =
          (isRuleDisabledAtLine ts L r && !rules.contains r)) ∧
    (∀ l1 l2 L : Nat, l1 ≤ l2 → l2 ≤ L →
        isRuleDisabledAtLine [(l1, .disable ["MD013", "MD060"]),
          (l2, .enable ["MD013"])] L "MD060" = true ∧
        isRuleDisabledAtLine [(l1, .disable ["MD013", "MD060"]),
          (l2, .enable ["MD013"])] L "MD013" = false) := by
  refine ⟨fun ts l rules L r h => isRuleDisabledAtLine_append_disable ts l rules L r h,
    fun ts l rules L r h => isRuleDisabledAtLine_append_enable ts l rules L r h, ?_⟩
  intro l1 l2 L h12 h2L
  have h1L : l1 ≤ L := le_trans h12 h2L
  have base : ∀ r : String,
      isRuleDisabledAtLine [(l1, MdDirective.disable ["MD013", "MD060"])] L r =
        (["MD013", "MD060"].contains r) := by
    intro r
    have := isRuleDisabledAtLine_append_disable [] l1 ["MD013", "MD060"] L r h1L
    simpa [isRuleDisabledAtLine, disabledRulesAtLine] using this
  constructor
  · have := isRuleDisabledAtLine_append_enable
      [(l1, MdDirective.disable ["MD013", "MD060"])] l2 ["MD013"] L "MD060" h2L
    rw [base "MD060"] at this
    simpa using this
  · have := isRuleDisabledAtLine_append_enable
      [(l1, MdDirective.disable ["MD013", "MD060"])] l2 ["MD013"] L "MD013" h2L
    rw [base "MD013"] at this
    simpa using this

/-- Witness for claim C5 at concrete lines. -/
theorem claim_C5_witness :
    isRuleDisabledAtLine [(2, .disable ["MD013", "MD060"]),
      (5, .enable ["MD013"])] 9 "MD060" = true ∧
    isRuleDisabledAtLine [(2, .disable ["MD013", "MD060"]),
      (5, .enable ["MD013"])] 9 "MD013" = false :=
  claim_C5.2.2 2 5 9 (by decide) (by decide)

theorem lintPath_foldl_general (raw : MarkdownTableM → List TableViolationM)
    (ts : List (Nat × MdDirective)) :
    ∀ (tables : List MarkdownTableM) (acc : List TableViolationM),
      tables.foldl (fun acc t => acc ++ validateFiltered raw ts t) acc =
        acc ++ (tables.map (prFixTableViolations raw ts)).join := by
  intro tables
  induction tables with
  | nil => intro acc; simp
  | cons t rest ih =>
    intro acc
    simp only [List.foldl_cons, List.map_cons, List.join]
    rw [ih]
    simp [prFixTableViolations, List.append_assoc]

theorem lintPath_eq_join (raw : MarkdownTableM → List TableViolationM)
    (ts : List (Nat × MdDirective)) (tables : List MarkdownTableM) :
    lintPathViolations raw ts tables =
      (tables.map (prFixTableViolations raw ts)).join := by
  unfold lintPathViolations
  simpa using lintPath_foldl_general raw ts tables []

/-- Claim C1: the lint path and the PR-fix path apply the same
disabler-filtered validation per table, so their filtered results coincide;
the filter keeps exactly the violations whose rule is not disabled at their
line number; and the PR-fix path's issue flag agrees with the lint path's
accumulated list being non-empty. -/
theorem claim_C1 :
    (∀ (raw : MarkdownTableM → List TableViolationM)
        (ts : List (Nat × MdDirective)) (tables : List MarkdownTableM),
        lintPathViolations raw ts tables =
          (tables.map (prFixTableViolations raw ts)).join) ∧
    (∀ (ts : List (Nat × MdDirective)) (vs : List TableViolationM)
        (v : TableViolationM),
        v ∈ filterViolationsByDisabledRules vs ts ↔
          v ∈ vs ∧ isRuleDisabledAtLine ts v.lineNumber v.mdRule = false) ∧
    (∀ (raw : MarkdownTableM → List TableViolationM)
        (ts : List (Nat × MdDirective)) (tables : List MarkdownTableM),
        prFixHasIssues raw ts tables = !(lintPathViolations raw ts tables).isEmpty) := by
  refine ⟨lintPath_eq_join, ?_, ?_⟩
  · intro ts vs v
    unfold filterViolationsByDisabledRules
    simp [List.mem_filter]
  · intro raw ts tables
    rw [lintPath_eq_join]
    induction tables with
    | nil => simp [prFixHasIssues]
    | cons t rest ih =>
      simp only [prFixHasIssues, List.any_cons, List.map_cons, List.join] at *
      cases hft : prFixTableViolations raw ts t with
      | nil => simpa [hft] using ih
      | cons a l => simp [hft]

theorem claim_C10_runValidations_ok :
    runValidations (fun _ => Except.error (PyErr.tableParse "boom"))
      [(⟨[], []⟩ : MarkdownTableM)] [] = ([], some (PyErr.tableParse "boom")) := rfl

/-- Claim C10: `_process_file` is total at its boundary.  A parse failure, a
validation failure or a fixing failure each yields a returned `FileResult`
carrying the handler's message; every recorded error message comes from one
of the three handlers; and when fixing is off the fixer stage is never
consulted. -/
theorem claim_C10 :
    (∀ (e : PyErr) (validate : MarkdownTableM → Except PyErr (List TableViolationM))
        (fixF : Except PyErr Nat) (doFix : Bool),
        processFile (.error e) validate fixF doFix =
          ⟨0, [], 0, some (errMsg e)⟩) ∧
    (∀ (tables : List MarkdownTableM) validate (fixF : Except PyErr Nat)
        (doFix : Bool) (vs : List TableViolationM) (e : PyErr),
        runValidations validate tables [] = (vs, some e) →
        processFile (.ok tables) validate fixF doFix =
          ⟨tables.length, vs, 0, some (errMsg e)⟩) ∧
    (∀ (tables : List MarkdownTableM) validate (e : PyErr) (vs : List TableViolationM),
        runValidations validate tables [] = (vs, none) →
        processFile (.ok tables) validate (.error e) true =
          ⟨tables.length, vs, 0, some (errMsg e)⟩) ∧
    (∀ (parse : Except PyErr (List MarkdownTableM)) validate
        (fixF : Except PyErr Nat) (doFix : Bool) (m : String),
        (processFile parse validate fixF doFix).error = some m →
        ∃ e, m = errMsg e) ∧
    (∀ (parse : Except PyErr (List MarkdownTableM)) validate
        (fixF fixG : Except PyErr Nat),
        processFile parse validate fixF false = processFile parse validate fixG false) := by
  refine ⟨?_, ?_, ?_, ?_, ?_⟩
  · intro e validate fixF doFix
    rfl
  · intro tables validate fixF doFix vs e h
    simp [processFile, h]
  · intro tables validate e vs h
    simp [processFile, h]
  · intro parse validate fixF doFix m h
    cases parse with
    | error e =>
      simp [processFile] at h
      exact ⟨e, h.symm⟩
    | ok tables =>
      rcases hrv : runValidations validate tables [] with ⟨vs, oe⟩
      cases oe with
      | some e =>
        simp [processFile, hrv] at h
        exact ⟨e, h.symm⟩
      | none =>
        cases doFix with
        | false => simp [processFile, hrv] at h
        | true =>
          cases fixF with
          | error e =>
            simp [processFile, hrv] at h
            exact ⟨e, h.symm⟩
          | ok n => simp [processFile, hrv] at h
  · intro parse validate fixF fixG
    cases parse with
    | error e => rfl
    | ok tables =>
      rcases hrv : runValidations validate tables [] with ⟨vs, oe⟩
      cases oe <;> simp [processFile, hrv]

/-- Witness for claim C10: a validation failure is recorded, not raised. -/
theorem claim_C10_witness :
    processFile (Except.ok [(⟨[], []⟩ : MarkdownTableM)])
      (fun _ => Except.error (PyErr.tableParse "boom")) (Except.ok 0) true =
      ⟨1, [], 0, some (errMsg (PyErr.tableParse "boom"))⟩ :=
  claim_C10.2.1 [(⟨[], []⟩ : MarkdownTableM)] _ (Except.ok 0) true []
    (PyErr.tableParse "boom") rfl

/-- Claim C4: width is measured after entity decoding, so for content whose
single decoding is stable (the entities denote the literal glyphs) the
decoded form has the same display width; in particular `&#124;` and `|`
both measure 1 and the emoji entity `&#x1F600;` measures 2. -/
theorem claim_C4 :
    (∀ s : List Char, decodeEntities (decodeEntities s) = decodeEntities s →
        displayWidthL (decodeEntities s) = displayWidthL s) ∧
    displayWidth "&#124;" = 1 ∧ displayWidth "|" = 1 ∧
    displayWidth "&#x1F600;" = 2 := by
  refine ⟨?_, by decide, by decide, by decide⟩
  intro s h
  unfold displayWidthL
  rw [h]

/-- Witness for claim C4 at the entity `&#124;`. -/
theorem claim_C4_witness :
    displayWidthL (decodeEntities "&#124;".data) = displayWidthL "&#124;".data :=
  claim_C4.1 "&#124;".data (by decide)

theorem findConfigChain_none (ds : List DirFiles)
    (h : ∀ d ∈ ds, firstConfigHit CONFIG_FILE_NAMES d = none) :
    findConfigChain ds = none := by
  induction ds with
  | nil => rfl
  | cons d rest ih =>
    unfold findConfigChain
    rw [h d (List.mem_cons_self d rest)]
    exact ih (fun d2 hd2 => h d2 (List.mem_cons_of_mem d hd2))

/-- Claim C6: a config resolution that finds only malformed or unreadable
content behaves exactly as if no config file existed: the rule is reported
enabled, with no error surfaced (the resolver is a total boolean function);
the test suite's malformed-JSON and BOM-prefixed contents are rejected by
the parser and fall open to enabled. -/
theorem claim_C6 :
    (∀ (dirs : List DirFiles) (rule name : String) (content : List Char),
        findConfigChain (dirs.take CONFIG_SEARCH_DEPTH) = some (name, some content) →
        parseConfigContent name content = none →
        ruleEnabled dirs rule = true ∧ ruleEnabled dirs rule = ruleEnabled [] rule) ∧
    (∀ (dirs : List DirFiles) (rule name : String),
        findConfigChain (dirs.take CONFIG_SEARCH_DEPTH) = some (name, none) →
        ruleEnabled dirs rule = true) ∧
    parseConfigContent ".markdownlint.json"
      "\x7b\"MD013\": false invalid json\x7d".data = none ∧
    parseConfigContent ".markdownlint.json"
      "\xfeff\x7b\"MD013\": false\x7d".data = none ∧
    ruleEnabled [[(".markdownlint.json",
      some "\x7b\"MD013\": false invalid json\x7d".data)]] "MD013" =
      ruleEnabled [] "MD013" := by
  refine ⟨?_, ?_, rfl, rfl, rfl⟩
  · intro dirs rule name content h1 h2
    constructor
    · simp [ruleEnabled, h1, h2]
    · simp [ruleEnabled, h1, h2, findConfigChain]
  · intro dirs rule name h1
    simp [ruleEnabled, h1]

/-- Witness for claim C6 at the malformed-JSON content of the test suite. -/
theorem claim_C6_witness :
    ruleEnabled [[(".markdownlint.json",
      some "\x7b\"MD013\": false invalid json\x7d".data)]] "MD013" = true ∧
    ruleEnabled [[(".markdownlint.json",
      some "\x7b\"MD013\": false invalid json\x7d".data)]] "MD013" =
      ruleEnabled [] "MD013" :=
  claim_C6.1 [[(".markdownlint.json",
    some "\x7b\"MD013\": false invalid json\x7d".data)]] "MD013"
    ".markdownlint.json" "\x7b\"MD013\": false invalid json\x7d".data rfl rfl

/-- Claim C7: the ancestor search is bounded to 5 levels — resolution only
ever consults the first five directories of the chain (stopping earlier at
the end of a short chain), a chain whose first five directories hold no
config resolves to the enabled default, and a config placed 7 directories
above the file is never found even though it would disable the rule if it
were in range. -/
theorem claim_C7 :
    (∀ (dirs : List DirFiles) (rule : String),
        ruleEnabled dirs rule = ruleEnabled (dirs.take CONFIG_SEARCH_DEPTH) rule) ∧
    (∀ (dirs : List DirFiles) (rule : String),
        (∀ d ∈ dirs.take CONFIG_SEARCH_DEPTH,
            firstConfigHit CONFIG_FILE_NAMES d = none) →
        ruleEnabled dirs rule = true) ∧
    ruleEnabled (List.replicate 7 ([] : DirFiles) ++
      [[(".markdownlint.json", some "\x7b\"MD013\": false\x7d".data)]]) "MD013" = true ∧
    ruleEnabled [[(".markdownlint.json",
      some "\x7b\"MD013\": false\x7d".data)]] "MD013" = false := by
  refine ⟨?_, ?_, rfl, rfl⟩
  · intro dirs rule
    unfold ruleEnabled
    rw [List.take_take]
    simp
  · intro dirs rule h
    simp [ruleEnabled, findConfigChain_none _ h]

/-- Witness for claim C7: a three-directory chain with no config resolves to
the enabled default through the bounded search. -/
theorem claim_C7_witness :
    ruleEnabled [[], [], []] "MD013" = true :=
  claim_C7.2.1 [[], [], []] "MD013" (by decide)

theorem slash_ne_bsl : slashChar ≠ bslChar := by decide

theorem slash_ne_dquote : slashChar ≠ dquoteChar := by decide

theorem dquote_ne_bsl : dquoteChar ≠ bslChar := by decide

theorem lis_zero (l : List Char) (st : Bool) : lineInString l st 0 = st := by
  cases l <;> rfl

theorem lis_nil (st : Bool) (j : Nat) : lineInString [] st (j + 1) = st := rfl

theorem lis_true_bsl_nil (j : Nat) : lineInString [bslChar] true (j + 1) = true := rfl

theorem lis_true_bsl_one (d : Char) (r2 : List Char) :
    lineInString (bslChar :: d :: r2) true 1 = true := rfl

theorem lis_true_bsl_two (d : Char) (r2 : List Char) (k : Nat) :
    lineInString (bslChar :: d :: r2) true (k + 2) = lineInString r2 true k := rfl

theorem lis_true_quote (rest : List Char) (j : Nat) :
    lineInString (dquoteChar :: rest) true (j + 1) = lineInString rest false j := by
  conv_lhs => rw [lineInString.eq_def]
  simp [dquote_ne_bsl]

theorem lis_true_other (c : Char) (rest : List Char) (j : Nat)
    (h1 : c ≠ bslChar) (h2 : c ≠ dquoteChar) :
    lineInString (c :: rest) true (j + 1) = lineInString rest true j := by
  conv_lhs => rw [lineInString.eq_def]
  simp [h1, h2]

theorem lis_false_slash_slash (r2 : List Char) (j : Nat) :
    lineInString (slashChar :: slashChar :: r2) false (j + 1) = false := by
  conv_lhs => rw [lineInString.eq_def]
  simp [slash_ne_dquote]

theorem lis_false_slash_other (d : Char) (r2 : List Char) (j : Nat)
    (hd : d ≠ slashChar) :
    lineInString (slashChar :: d :: r2) false (j + 1) =
      lineInString (d :: r2) false j := by
  conv_lhs => rw [lineInString.eq_def]
  simp [hd, slash_ne_dquote]

theorem lis_false_slash_nil (j : Nat) :
    lineInString [slashChar] false (j + 1) = false := by
  conv_lhs => rw [lineInString.eq_def]
  simp [slash_ne_dquote]

theorem lis_false_quote (rest : List Char) (j : Nat) :
    lineInString (dquoteChar :: rest) false (j + 1) = lineInString rest true j := by
  conv_lhs => rw [lineInString.eq_def]
  simp [slash_ne_dquote.symm]

theorem lis_false_other (c : Char) (rest : List Char) (j : Nat)
    (h1 : c ≠ slashChar) (h2 : c ≠ dquoteChar) :
    lineInString (c :: rest) false (j + 1) = lineInString rest false j := by
  conv_lhs => rw [lineInString.eq_def]
  simp [h1, h2]

theorem rja_nil (st : Bool) : removeJsoncAux [] st = [] := rfl

theorem rja_true_bsl_nil : removeJsoncAux [bslChar] true = [bslChar] := rfl

theorem rja_true_bsl_cons (d : Char) (r2 : List Char) :
    removeJsoncAux (bslChar :: d :: r2) true = bslChar :: d :: removeJsoncAux r2 true := rfl

theorem rja_true_quote (rest : List Char) :
    removeJsoncAux (dquoteChar :: rest) true = dquoteChar :: removeJsoncAux rest false := by
  conv_lhs => rw [removeJsoncAux.eq_def]
  simp [dquote_ne_bsl]

theorem rja_true_other (c : Char) (rest : List Char)
    (h1 : c ≠ bslChar) (h2 : c ≠ dquoteChar) :
    removeJsoncAux (c :: rest) true = c :: removeJsoncAux rest true := by
  conv_lhs => rw [removeJsoncAux.eq_def]
  simp [h1, h2]

theorem rja_false_slash_slash (r2 : List Char) :
    removeJsoncAux (slashChar :: slashChar :: r2) false = [] := by
  conv_lhs => rw [removeJsoncAux.eq_def]
  simp [slash_ne_dquote]

theorem rja_false_slash_other (d : Char) (r2 : List Char) (hd : d ≠ slashChar) :
    removeJsoncAux (slashChar :: d :: r2) false =
      slashChar :: removeJsoncAux (d :: r2) false := by
  conv_lhs => rw [removeJsoncAux.eq_def]
  simp [hd, slash_ne_dquote]

theorem rja_false_slash_nil : removeJsoncAux [slashChar] false = [slashChar] := by
  conv_lhs => rw [removeJsoncAux.eq_def]
  simp [slash_ne_dquote]

theorem rja_false_quote (rest : List Char) :
    removeJsoncAux (dquoteChar :: rest) false = dquoteChar :: removeJsoncAux rest true := by
  conv_lhs => rw [removeJsoncAux.eq_def]
  simp [slash_ne_dquote.symm]

theorem rja_false_other (c : Char) (rest : List Char)
    (h1 : c ≠ slashChar) (h2 : c ≠ dquoteChar) :
    removeJsoncAux (c :: rest) false = c :: removeJsoncAux rest false := by
  conv_lhs => rw [removeJsoncAux.eq_def]
  simp [h1, h2]

theorem removeJsoncAux_preserves_inStr :
    ∀ (n : Nat) (l : List Char), l.length ≤ n → ∀ (st : Bool) (i : Nat),
      lineInString l st i = true →
      l.get? i = some slashChar → l.get? (i + 1) = some slashChar →
      (removeJsoncAux l st).get? i = some slashChar ∧
        (removeJsoncAux l st).get? (i + 1) = some slashChar := by
  intro n
  induction n with
  | zero =>
    intro l hl st i _ hg _
    have : l = [] := List.length_eq_zero.mp (Nat.le_zero.mp hl)
    subst this
    simp at hg
  | succ n ih =>
    intro l hl st i hst hg hg1
    cases l with
    | nil => simp at hg
    | cons c rest =>
      cases i with
      | zero =>
        rw [lis_zero] at hst
        subst hst
        have hc : c = slashChar := by simpa using hg
        subst hc
        cases rest with
        | nil => simp at hg1
        | cons d r2 =>
          have hd : d = slashChar := by simpa using hg1
          subst hd
          rw [rja_true_other _ _ slash_ne_bsl slash_ne_dquote,
            rja_true_other _ _ slash_ne_bsl slash_ne_dquote]
          simp
      | succ j =>
        have hlen : rest.length ≤ n := by
          simp only [List.length_cons] at hl
          omega
        cases st with
        | true =>
          by_cases hbsl : c = bslChar
          · subst hbsl
            cases rest with
            | nil => simp at hg1
            | cons d rest2 =>
              cases j with
              | zero =>
                have hd : d = slashChar := by simpa using hg
                subst hd
                cases rest2 with
                | nil => simp at hg1
                | cons e r3 =>
                  have he : e = slashChar := by simpa using hg1
                  subst he
                  rw [rja_true_bsl_cons,
                    rja_true_other _ _ slash_ne_bsl slash_ne_dquote]
                  simp
              | succ k =>
                have hrec : lineInString rest2 true k = true := by
                  rw [← lis_true_bsl_two d rest2 k]
                  exact hst
                have hgr : rest2.get? k = some slashChar := by simpa using hg
                have hgr1 : rest2.get? (k + 1) = some slashChar := by simpa using hg1
                have hlen2 : rest2.length ≤ n := by
                  simp only [List.length_cons] at hlen ⊢
                  omega
                obtain ⟨p1, p2⟩ := ih rest2 hlen2 true k hrec hgr hgr1
                rw [rja_true_bsl_cons]
                exact ⟨by simpa using p1, by simpa using p2⟩
          · by_cases hq : c = dquoteChar
            · subst hq
              rw [lis_true_quote] at hst
              have hgr : rest.get? j = some slashChar := by simpa using hg
              have hgr1 : rest.get? (j + 1) = some slashChar := by simpa using hg1
              obtain ⟨p1, p2⟩ := ih rest hlen false j hst hgr hgr1
              rw [rja_true_quote]
              exact ⟨by simpa using p1, by simpa using p2⟩
            · rw [lis_true_other _ _ _ hbsl hq] at hst
              have hgr : rest.get? j = some slashChar := by simpa using hg
              have hgr1 : rest.get? (j + 1) = some slashChar := by simpa using hg1
              obtain ⟨p1, p2⟩ := ih rest hlen true j hst hgr hgr1
              rw [rja_true_other _ _ hbsl hq]
              exact ⟨by simpa using p1, by simpa using p2⟩
        | false =>
          by_cases hsl : c = slashChar
          · subst hsl
            cases rest with
            | nil => simp at hg
            | cons d r2 =>
              by_cases hd : d = slashChar
              · exfalso
                subst hd
                rw [lis_false_slash_slash] at hst
                cases hst
              · rw [lis_false_slash_other _ _ _ hd] at hst
                have hgr : (d :: r2).get? j = some slashChar := by simpa using hg
                have hgr1 : (d :: r2).get? (j + 1) = some slashChar := by
                  simpa using hg1
                obtain ⟨p1, p2⟩ := ih (d :: r2) hlen false j hst hgr hgr1
                rw [rja_false_slash_other _ _ hd]
                exact ⟨by simpa using p1, by simpa using p2⟩
          · by_cases hq : c = dquoteChar
            · subst hq
              rw [lis_false_quote] at hst
              have hgr : rest.get? j = some slashChar := by simpa using hg
              have hgr1 : rest.get? (j + 1) = some slashChar := by simpa using hg1
              obtain ⟨p1, p2⟩ := ih rest hlen true j hst hgr hgr1
              rw [rja_false_quote]
              exact ⟨by simpa using p1, by simpa using p2⟩
            · rw [lis_false_other _ _ _ hsl hq] at hst
              have hgr : rest.get? j = some slashChar := by simpa using hg
              have hgr1 : rest.get? (j + 1) = some slashChar := by simpa using hg1
              obtain ⟨p1, p2⟩ := ih rest hlen false j hst hgr hgr1
              rw [rja_false_other _ _ hsl hq]
              exact ⟨by simpa using p1, by simpa using p2⟩

theorem removeJsoncAux_cut_outStr :
    ∀ (n : Nat) (l : List Char), l.length ≤ n → ∀ (st : Bool) (i : Nat),
      lineInString l st i = false →
      l.get? i = some slashChar → l.get? (i + 1) = some slashChar →
      (removeJsoncAux l st).length ≤ i := by
  intro n
  induction n with
  | zero =>
    intro l hl st i _ hg _
    have : l = [] := List.length_eq_zero.mp (Nat.le_zero.mp hl)
    subst this
    simp at hg
  | succ n ih =>
    intro l hl st i hst hg hg1
    cases l with
    | nil => simp at hg
    | cons c rest =>
      cases i with
      | zero =>
        rw [lis_zero] at hst
        subst hst
        have hc : c = slashChar := by simpa using hg
        subst hc
        cases rest with
        | nil => simp at hg1
        | cons d r2 =>
          have hd : d = slashChar := by simpa using hg1
          subst hd
          rw [rja_false_slash_slash]
          simp
      | succ j =>
        have hlen : rest.length ≤ n := by
          simp only [List.length_cons] at hl
          omega
        cases st with
        | true =>
          by_cases hbsl : c = bslChar
          · subst hbsl
            cases rest with
            | nil => simp at hg1
            | cons d rest2 =>
              cases j with
              | zero =>
                exfalso
                rw [lis_true_bsl_one] at hst
                cases hst
              | succ k =>
                have hrec : lineInString rest2 true k = false := by
                  rw [← lis_true_bsl_two d rest2 k]
                  exact hst
                have hgr : rest2.get? k = some slashChar := by simpa using hg
                have hgr1 : rest2.get? (k + 1) = some slashChar := by simpa using hg1
                have hlen2 : rest2.length ≤ n := by
                  simp only [List.length_cons] at hlen ⊢
                  omega
                have hb := ih rest2 hlen2 true k hrec hgr hgr1
                rw [rja_true_bsl_cons]
                simp only [List.length_cons]
                omega
          · by_cases hq : c = dquoteChar
            · subst hq
              rw [lis_true_quote] at hst
              have hgr : rest.get? j = some slashChar := by simpa using hg
              have hgr1 : rest.get? (j + 1) = some slashChar := by simpa using hg1
              have hb := ih rest hlen false j hst hgr hgr1
              rw [rja_true_quote]
              simp only [List.length_cons]
              omega
            · rw [lis_true_other _ _ _ hbsl hq] at hst
              have hgr : rest.get? j = some slashChar := by simpa using hg
              have hgr1 : rest.get? (j + 1) = some slashChar := by simpa using hg1
              have hb := ih rest hlen true j hst hgr hgr1
              rw [rja_true_other _ _ hbsl hq]
              simp only [List.length_cons]
              omega
        | false =>
          by_cases hsl : c = slashChar
          · subst hsl
            cases rest with
            | nil => simp at hg
            | cons d r2 =>
              by_cases hd : d = slashChar
              · subst hd
                rw [rja_false_slash_slash]
                simp
              · rw [lis_false_slash_other _ _ _ hd] at hst
                have hgr : (d :: r2).get? j = some slashChar := by simpa using hg
                have hgr1 : (d :: r2).get? (j + 1) = some slashChar := by
                  simpa using hg1
                have hb := ih (d :: r2) hlen false j hst hgr hgr1
                rw [rja_false_slash_other _ _ hd]
                simp only [List.length_cons]
                omega
          · by_cases hq : c = dquoteChar
            · subst hq
              rw [lis_false_quote] at hst
              have hgr : rest.get? j = some slashChar := by simpa using hg
              have hgr1 : rest.get? (j + 1) = some slashChar := by simpa using hg1
              have hb := ih rest hlen true j hst hgr hgr1
              rw [rja_false_quote]
              simp only [List.length_cons]
              omega
            · rw [lis_false_other _ _ _ hsl hq] at hst
              have hgr : rest.get? j = some slashChar := by simpa using hg
              have hgr1 : rest.get? (j + 1) = some slashChar := by simpa using hg1
              have hb := ih rest hlen false j hst hgr hgr1
              rw [rja_false_other _ _ hsl hq]
              simp only [List.length_cons]
              omega

/-- Counterexample for claim C8: in the multiline content of the stripper's
own test suite the `//` at offset 21 lies inside a double-quoted string
value (cross-line lexing), yet the stripper removes it: the text
`not a comment` occurs in the input and not in the output. -/
theorem claim_C8_counterexample :
    plainInString multilineJsoncDemo false 21 = true ∧
    multilineJsoncDemo.get? 21 = some slashChar ∧
    multilineJsoncDemo.get? 22 = some slashChar ∧
    containsSeq "not a comment".data multilineJsoncDemo = true ∧
    containsSeq "not a comment".data (removeJsoncComments multilineJsoncDemo) = false := by
  exact ⟨by decide, by decide, by decide, by decide, by decide⟩

/-- Claim C8 as amended: the stripper is line-oriented.  Within one line a
`//` reached while the scanner's own (comment-aware, escape-honoring,
line-local) state is inside a double-quoted string survives at its offset;
a `//` reached outside a string truncates the line at or before its offset;
and the whole-content stripper is exactly the per-line stripper applied to
the newline-split content.  A `//` inside a string that spans lines is not
protected (see the counterexample). -/
theorem claim_C8_amended :
    (∀ (l : List Char) (i : Nat),
        lineInString l false i = true →
        l.get? i = some slashChar → l.get? (i + 1) = some slashChar →
        (stripJsoncLine l).get? i = some slashChar ∧
          (stripJsoncLine l).get? (i + 1) = some slashChar) ∧
    (∀ (l : List Char) (i : Nat),
        lineInString l false i = false →
        l.get? i = some slashChar → l.get? (i + 1) = some slashChar →
        (stripJsoncLine l).length ≤ i) ∧
    (∀ content : List Char,
        removeJsoncComments content =
          List.intercalate [nlChar] ((content.splitOn nlChar).map stripJsoncLine)) :=
  ⟨fun l i => removeJsoncAux_preserves_inStr l.length l le_rfl false i,
   fun l i => removeJsoncAux_cut_outStr l.length l le_rfl false i,
   fun _ => rfl⟩

/-- Witness for the amended claim C8: the `//` inside a quoted value is
preserved at its offset. -/
theorem claim_C8_witness :
    (stripJsoncLine "\"a//b\"".data).get? 2 = some slashChar ∧
    (stripJsoncLine "\"a//b\"".data).get? (2 + 1) = some slashChar :=
  claim_C8_amended.1 "\"a//b\"".data 2 (by decide) (by decide) (by decide)

theorem wsChar_cases (c : Char) (h : isWsChar c = true) :
    c = ' ' ∨ c = Char.ofNat 9 ∨ c = nlChar ∨ c = Char.ofNat 13 := by
  have := h
  simp only [isWsChar, Bool.or_eq_true, decide_eq_true_eq] at this
  tauto

theorem ws_not_decDigit (c : Char) (h : isWsChar c = true) : isDecDigit c = false := by
  rcases wsChar_cases c h with h | h | h | h <;> subst h <;> decide

theorem ws_not_hexDigit (c : Char) (h : isWsChar c = true) : isHexDigit c = false := by
  rcases wsChar_cases c h with h | h | h | h <;> subst h <;> decide

theorem ws_ne_amp (c : Char) (h : isWsChar c = true) : c ≠ '&' := by
  rcases wsChar_cases c h with h | h | h | h <;> subst h <;> decide

theorem ws_ne_semi (c : Char) (h : isWsChar c = true) : c ≠ ';' := by
  rcases wsChar_cases c h with h | h | h | h <;> subst h <;> decide

theorem scanDigits_append (pred : Char → Bool) (base : Nat) :
    ∀ (l w : List Char) (acc n : Nat), (∀ c ∈ w, pred c = false) →
      scanDigits pred base (l ++ w) acc n =
        ((scanDigits pred base l acc n).1, (scanDigits pred base l acc n).2.1,
          (scanDigits pred base l acc n).2.2 ++ w) := by
  intro l
  induction l with
  | nil =>
    intro w acc n hw
    cases w with
    | nil => rfl
    | cons b bs =>
      simp [scanDigits, hw b (List.mem_cons_self b bs)]
  | cons c cs ih =>
    intro w acc n hw
    by_cases hc : pred c = true
    · simp only [List.cons_append, scanDigits, hc, if_pos]
      exact ih w _ _ hw
    · rw [Bool.not_eq_true] at hc
      simp [scanDigits, hc]

theorem scanDigits_count (pred : Char → Bool) (base : Nat) :
    ∀ (l : List Char) (acc n : Nat),
      (scanDigits pred base l acc n).2.1 + (scanDigits pred base l acc n).2.2.length =
        n + l.length := by
  intro l
  induction l with
  | nil => intro acc n; simp [scanDigits]
  | cons c cs ih =>
    intro acc n
    by_cases hc : pred c = true
    · simp only [scanDigits, hc, if_pos]
      rw [ih]
      simp only [List.length_cons]
      omega
    · rw [Bool.not_eq_true] at hc
      simp [scanDigits, hc]

theorem startsWithL_length :
    ∀ (p l : List Char), startsWithL p l = true → p.length ≤ l.length := by
  intro p
  induction p with
  | nil => intro l _; simp
  | cons a as ih =>
    intro l h
    cases l with
    | nil => simp [startsWithL] at h
    | cons b bs =>
      simp only [startsWithL, Bool.and_eq_true] at h
      have := ih bs h.2
      simp only [List.length_cons]
      omega

theorem startsWithL_append_ws :
    ∀ (p l w : List Char), (∀ c ∈ p, isWsChar c = false) →
      (∀ c ∈ w, isWsChar c = true) →
      startsWithL p (l ++ w) = startsWithL p l := by
  intro p
  induction p with
  | nil => intro l w _ _; rfl
  | cons a as ih =>
    intro l w hp hw
    cases l with
    | nil =>
      cases w with
      | nil => rfl
      | cons b bs =>
        have hab : (a = b) = False := by
          simp only [eq_iff_iff, iff_false]
          intro hab
          subst hab
          have h1 := hp a (List.mem_cons_self a as)
          have h2 := hw a (List.mem_cons_self a bs)
          rw [h1] at h2
          cases h2
        simp [startsWithL, hab]
    | cons b bs =>
      simp only [List.cons_append, startsWithL]
      have := ih bs w (fun c hc => hp c (List.mem_cons_of_mem a hc)) hw
      rw [show bs.append w = bs ++ w from rfl, this]

theorem matchEntity_append_ws (l w : List Char) (hw : ∀ c ∈ w, isWsChar c = true) :
    matchEntity (l ++ w) = matchEntity l := by
  unfold matchEntity
  rw [startsWithL_append_ws ['#', 'x'] l w (by decide) hw,
    startsWithL_append_ws ['#', 'X'] l w (by decide) hw,
    startsWithL_append_ws ['#'] l w (by decide) hw,
    startsWithL_append_ws ['l', 't', ';'] l w (by decide) hw,
    startsWithL_append_ws ['g', 't', ';'] l w (by decide) hw,
    startsWithL_append_ws ['a', 'm', 'p', ';'] l w (by decide) hw,
    startsWithL_append_ws ['q', 'u', 'o', 't', ';'] l w (by decide) hw]
  split_ifs with h1 h2
  · have hlen : 2 ≤ l.length := by
      by_cases hx : startsWithL ['#', 'x'] l = true
      · exact startsWithL_length _ _ hx
      · rw [Bool.not_eq_true] at hx
        rw [hx] at h1
        exact startsWithL_length _ _ (by simpa using h1)
    rw [List.drop_append_of_le_length hlen,
      scanDigits_append isHexDigit 16 (l.drop 2) w 0 0
        (fun c hc => ws_not_hexDigit c (hw c hc))]
    rcases hsd : scanDigits isHexDigit 16 (l.drop 2) 0 0 with ⟨v, n, rest⟩
    simp only
    by_cases hn : n = 0
    · simp [hn]
    · simp only [hn, if_false, if_neg hn]
      cases rest with
      | nil =>
        cases w with
        | nil => rfl
        | cons b bs =>
          simp only [List.nil_append]
          rw [if_neg (ws_ne_semi b (hw b (List.mem_cons_self b bs)))]
      | cons c2 cs => rfl
  · have hlen : 1 ≤ l.length := startsWithL_length _ _ h2
    rw [List.drop_append_of_le_length hlen,
      scanDigits_append isDecDigit 10 (l.drop 1) w 0 0
        (fun c hc => ws_not_decDigit c (hw c hc))]
    rcases hsd : scanDigits isDecDigit 10 (l.drop 1) 0 0 with ⟨v, n, rest⟩
    simp only
    by_cases hn : n = 0
    · simp [hn]
    · simp only [hn, if_false, if_neg hn]
      cases rest with
      | nil =>
        cases w with
        | nil => rfl
        | cons b bs =>
          simp only [List.nil_append]
          rw [if_neg (ws_ne_semi b (hw b (List.mem_cons_self b bs)))]
      | cons c2 cs => rfl
  all_goals rfl

theorem matchEntity_bound (l : List Char) (ch : Char) (k : Nat)
    (h : matchEntity l = some (ch, k)) : k ≤ l.length := by
  unfold matchEntity at h
  split_ifs at h with h1 h2 h3 h4 h5 h6
  · have hlen : 2 ≤ l.length := by
      by_cases hx : startsWithL ['#', 'x'] l = true
      · exact startsWithL_length _ _ hx
      · rw [Bool.not_eq_true] at hx
        rw [hx] at h1
        exact startsWithL_length _ _ (by simpa using h1)
    rcases hsd : scanDigits isHexDigit 16 (l.drop 2) 0 0 with ⟨v, n, rest⟩
    rw [hsd] at h
    simp only at h
    by_cases hn : n = 0
    · simp [hn] at h
    · rw [if_neg hn] at h
      cases rest with
      | nil => cases h
      | cons c2 cs =>
        replace h : (if c2 = ';' then
            if hv : v.isValidChar then some (Char.ofNatAux v hv, 2 + n + 1) else none
          else none) = some (ch, k) := h
        by_cases hsemi : c2 = ';'
        · rw [if_pos hsemi] at h
          by_cases hv : v.isValidChar
          · rw [dif_pos hv] at h
            have hk : k = 2 + n + 1 := by
              have := Option.some.inj h
              exact (Prod.mk.injEq _ _ _ _).mp this |>.2.symm
            have hc := scanDigits_count isHexDigit 16 (l.drop 2) 0 0
            rw [hsd] at hc
            simp only [List.length_cons, List.length_drop] at hc
            omega
          · rw [dif_neg hv] at h
            cases h
        · rw [if_neg hsemi] at h
          cases h
  · have hlen : 1 ≤ l.length := startsWithL_length _ _ h2
    rcases hsd : scanDigits isDecDigit 10 (l.drop 1) 0 0 with ⟨v, n, rest⟩
    rw [hsd] at h
    simp only at h
    by_cases hn : n = 0
    · simp [hn] at h
    · rw [if_neg hn] at h
      cases rest with
      | nil => cases h
      | cons c2 cs =>
        replace h : (if c2 = ';' then
            if hv : v.isValidChar then some (Char.ofNatAux v hv, 1 + n + 1) else none
          else none) = some (ch, k) := h
        by_cases hsemi : c2 = ';'
        · rw [if_pos hsemi] at h
          by_cases hv : v.isValidChar
          · rw [dif_pos hv] at h
            have hk : k = 1 + n + 1 := by
              have := Option.some.inj h
              exact (Prod.mk.injEq _ _ _ _).mp this |>.2.symm
            have hc := scanDigits_count isDecDigit 10 (l.drop 1) 0 0
            rw [hsd] at hc
            simp only [List.length_cons, List.length_drop] at hc
            omega
          · rw [dif_neg hv] at h
            cases h
        · rw [if_neg hsemi] at h
          cases h
  · have := startsWithL_length _ _ h3
    have hk : k = 3 := ((Prod.mk.injEq _ _ _ _).mp (Option.some.inj h)).2.symm
    simp at this
    omega
  · have := startsWithL_length _ _ h4
    have hk : k = 3 := ((Prod.mk.injEq _ _ _ _).mp (Option.some.inj h)).2.symm
    simp at this
    omega
  · have := startsWithL_length _ _ h5
    have hk : k = 4 := ((Prod.mk.injEq _ _ _ _).mp (Option.some.inj h)).2.symm
    simp at this
    omega
  · have := startsWithL_length _ _ h6
    have hk : k = 5 := ((Prod.mk.injEq _ _ _ _).mp (Option.some.inj h)).2.symm
    simp at this
    omega

theorem decodeAux_fuel_eq :
    ∀ (f1 : Nat), ∀ (f2 : Nat) (l : List Char), l.length ≤ f1 → l.length ≤ f2 →
      decodeAux f1 l = decodeAux f2 l := by
  intro f1
  induction f1 with
  | zero =>
    intro f2 l h1 _
    have : l = [] := List.length_eq_zero.mp (Nat.le_zero.mp h1)
    subst this
    cases f2 <;> rfl
  | succ f1 ih =>
    intro f2 l h1 h2
    cases l with
    | nil => cases f2 <;> rfl
    | cons c rest =>
      cases f2 with
      | zero => simp at h2
      | succ g =>
        simp only [decodeAux]
        simp only [List.length_cons] at h1 h2
        by_cases hc : c = '&'
        · rw [if_pos hc, if_pos hc]
          cases hme : matchEntity rest with
          | some p =>
            rcases p with ⟨ch, k⟩
            have hkb : (rest.drop k).length ≤ rest.length := by
              simp [List.length_drop]
            show ch :: decodeAux f1 (rest.drop k) = ch :: decodeAux g (rest.drop k)
            rw [ih g (rest.drop k) (by omega) (by omega)]
          | none =>
            show c :: decodeAux f1 rest = c :: decodeAux g rest
            rw [ih g rest (by omega) (by omega)]
        · rw [if_neg hc, if_neg hc,
            ih f1 rest (by omega) (by omega), ih g rest (by omega) (by omega)]

theorem decodeEntities_cons (c : Char) (rest : List Char) :
    decodeEntities (c :: rest) =
      if c = '&' then
        match matchEntity rest with
        | some (ch, k) => ch :: decodeEntities (rest.drop k)
        | none => c :: decodeEntities rest
      else c :: decodeEntities rest := by
  show decodeAux (rest.length + 1) (c :: rest) = _
  simp only [decodeAux]
  by_cases hc : c = '&'
  · rw [if_pos hc, if_pos hc]
    cases hme : matchEntity rest with
    | some p =>
      rcases p with ⟨ch, k⟩
      show ch :: decodeAux rest.length (rest.drop k) = ch :: decodeEntities (rest.drop k)
      rw [decodeAux_fuel_eq rest.length (rest.drop k).length (rest.drop k)
        (by simp [List.length_drop]) le_rfl]
      rfl
    | none => rfl
  · rw [if_neg hc, if_neg hc]
    rfl

theorem decodeEntities_allWs (w : List Char) (hw : ∀ c ∈ w, isWsChar c = true) :
    decodeEntities w = w := by
  induction w with
  | nil => rfl
  | cons c rest ih =>
    rw [decodeEntities_cons,
      if_neg (ws_ne_amp c (hw c (List.mem_cons_self c rest)))]
    rw [ih (fun x hx => hw x (List.mem_cons_of_mem c hx))]

theorem decodeEntities_append_ws :
    ∀ (n : Nat) (l : List Char), l.length ≤ n → ∀ (w : List Char),
      (∀ c ∈ w, isWsChar c = true) →
      decodeEntities (l ++ w) = decodeEntities l ++ w := by
  intro n
  induction n with
  | zero =>
    intro l h1 w hw
    have : l = [] := List.length_eq_zero.mp (Nat.le_zero.mp h1)
    subst this
    simpa using decodeEntities_allWs w hw
  | succ n ih =>
    intro l h1 w hw
    cases l with
    | nil => simpa using decodeEntities_allWs w hw
    | cons c rest =>
      rw [List.cons_append, decodeEntities_cons, decodeEntities_cons]
      simp only [List.length_cons] at h1
      by_cases hc : c = '&'
      · rw [if_pos hc, if_pos hc, matchEntity_append_ws rest w hw]
        cases hme : matchEntity rest with
        | some p =>
          rcases p with ⟨ch, k⟩
          have hk := matchEntity_bound rest ch k hme
          show ch :: decodeEntities (List.drop k (rest ++ w)) =
            (ch :: decodeEntities (List.drop k rest)) ++ w
          rw [List.drop_append_of_le_length hk,
            ih (rest.drop k) (by simp [List.length_drop]; omega) w hw,
            List.cons_append]
        | none =>
          show c :: decodeEntities (rest ++ w) = (c :: decodeEntities rest) ++ w
          rw [ih rest (by omega) w hw, List.cons_append]
      · rw [if_neg hc, if_neg hc, ih rest (by omega) w hw]
        rfl

theorem decodeEntities_ws_prefix (w : List Char) (hw : ∀ c ∈ w, isWsChar c = true)
    (l : List Char) : decodeEntities (w ++ l) = w ++ decodeEntities l := by
  induction w with
  | nil => simp
  | cons b bs ih =>
    rw [List.cons_append, decodeEntities_cons,
      if_neg (ws_ne_amp b (hw b (List.mem_cons_self b bs))),
      ih (fun x hx => hw x (List.mem_cons_of_mem b hx))]
    rfl

theorem dropWhile_all (p : Char → Bool) (w : List Char) (h : ∀ c ∈ w, p c = true) :
    List.dropWhile p w = [] := by
  induction w with
  | nil => rfl
  | cons a t ih =>
    rw [List.dropWhile_cons_of_pos (h a (List.mem_cons_self a t))]
    exact ih (fun c hc => h c (List.mem_cons_of_mem a hc))

theorem dropWhile_head_false (p : Char → Bool) (l : List Char) (c : Char)
    (cs : List Char) (h : List.dropWhile p l = c :: cs) : p c = false := by
  induction l with
  | nil => simp at h
  | cons a t ih =>
    rw [List.dropWhile_cons] at h
    by_cases ha : p a = true
    · rw [if_pos ha] at h
      exact ih h
    · rw [Bool.not_eq_true] at ha
      rw [if_neg (by simp [ha])] at h
      injection h with h1 _
      subst h1
      exact ha

theorem dropWhile_idem (p : Char → Bool) (l : List Char) :
    List.dropWhile p (List.dropWhile p l) = List.dropWhile p l := by
  cases h : List.dropWhile p l with
  | nil => simp
  | cons c cs =>
    rw [List.dropWhile_cons_of_neg (by simp [dropWhile_head_false p l c cs h])]

theorem reverse_decomp (l : List Char) :
    l = (List.dropWhile isWsChar l.reverse).reverse ++
      (List.takeWhile isWsChar l.reverse).reverse := by
  conv_lhs =>
    rw [← List.reverse_reverse l,
      ← List.takeWhile_append_dropWhile (p := isWsChar) (l := l.reverse)]
  rw [List.reverse_append]

theorem stripL_decomp (l : List Char) :
    l = List.takeWhile isWsChar l ++ stripL l ++
      ((List.dropWhile isWsChar l).reverse.takeWhile isWsChar).reverse := by
  rw [List.append_assoc]
  conv_lhs => rw [← List.takeWhile_append_dropWhile (p := isWsChar) (l := l)]
  congr 1
  exact reverse_decomp (List.dropWhile isWsChar l)

theorem stripL_ws_prefix (w l : List Char) (hw : ∀ c ∈ w, isWsChar c = true) :
    stripL (w ++ l) = stripL l := by
  unfold stripL
  rw [List.dropWhile_append_of_pos hw]

theorem stripL_append_ws (l w : List Char) (hw : ∀ c ∈ w, isWsChar c = true) :
    stripL (l ++ w) = stripL l := by
  unfold stripL
  rw [List.dropWhile_append]
  by_cases h : (List.dropWhile isWsChar l).isEmpty
  · rw [if_pos h, dropWhile_all isWsChar w hw]
    rw [List.isEmpty_iff] at h
    rw [h]
  · rw [if_neg h, List.reverse_append,
      List.dropWhile_append_of_pos
        (by intro a ha; rw [List.mem_reverse] at ha; exact hw a ha)]

theorem stripL_stripL (l : List Char) : stripL (stripL l) = stripL l := by
  have hstep : List.dropWhile isWsChar (stripL l) = stripL l := by
    cases h : stripL l with
    | nil => simp
    | cons c cs =>
      have hY : List.dropWhile isWsChar l =
          stripL l ++ ((List.dropWhile isWsChar l).reverse.takeWhile isWsChar).reverse :=
        reverse_decomp (List.dropWhile isWsChar l)
      rw [h, List.cons_append] at hY
      have hc : isWsChar c = false := dropWhile_head_false _ l c _ hY
      rw [List.dropWhile_cons_of_neg (by simp [hc])]
  show ((List.dropWhile isWsChar (stripL l)).reverse.dropWhile isWsChar).reverse = stripL l
  rw [hstep]
  have hrev : (stripL l).reverse =
      List.dropWhile isWsChar (List.dropWhile isWsChar l).reverse := by
    unfold stripL
    rw [List.reverse_reverse]
  rw [hrev, dropWhile_idem, ← hrev, List.reverse_reverse]

theorem stripL_decode_strip (l : List Char) :
    stripL (decodeEntities (stripL l)) = stripL (decodeEntities l) := by
  have hw1 : ∀ c ∈ List.takeWhile isWsChar l, isWsChar c = true :=
    fun c hc => List.mem_takeWhile_imp hc
  have hw2 : ∀ c ∈ ((List.dropWhile isWsChar l).reverse.takeWhile isWsChar).reverse,
      isWsChar c = true := by
    intro c hc
    rw [List.mem_reverse] at hc
    exact List.mem_takeWhile_imp hc
  conv_rhs => rw [stripL_decomp l]
  rw [List.append_assoc, decodeEntities_ws_prefix _ hw1 _,
    decodeEntities_append_ws (stripL l).length (stripL l) le_rfl _ hw2,
    stripL_ws_prefix _ _ hw1, stripL_append_ws _ _ hw2]

theorem displayWidthL_stripL (l : List Char) :
    displayWidthL (stripL l) = displayWidthL l := by
  unfold displayWidthL
  rw [stripL_decode_strip l]

theorem replicate_space_ws (k : Nat) :
    ∀ c ∈ List.replicate k ' ', isWsChar c = true := by
  intro c hc
  rw [List.eq_of_mem_replicate hc]
  rfl

theorem displayWidthL_pad (l : List Char) (k : Nat) :
    displayWidthL (stripL l ++ List.replicate k ' ') = displayWidthL l := by
  unfold displayWidthL
  rw [decodeEntities_append_ws (stripL l).length (stripL l) le_rfl _
      (replicate_space_ws k),
    stripL_append_ws _ _ (replicate_space_ws k), stripL_decode_strip l]

theorem stripL_pad (l : List Char) (k : Nat) :
    stripL (stripL l ++ List.replicate k ' ') = stripL l := by
  rw [stripL_append_ws _ _ (replicate_space_ws k), stripL_stripL]

theorem fixCell_width (w : Nat) (c : List Char) :
    displayWidthL (fixCell w c) = displayWidthL c :=
  displayWidthL_pad c _

theorem fixCell_idem (w : Nat) (c : List Char) :
    fixCell w (fixCell w c) = fixCell w c := by
  unfold fixCell
  rw [stripL_pad, displayWidthL_pad]

theorem getD_zipWith_fixCell :
    ∀ (ws : List Nat) (r : List (List Char)) (i : Nat), i < ws.length → i < r.length →
      (List.zipWith fixCell ws r).getD i [] = fixCell (ws.getD i 0) (r.getD i []) := by
  intro ws
  induction ws with
  | nil => intro r i h _; simp at h
  | cons w ws ih =>
    intro r i h1 h2
    cases r with
    | nil => simp at h2
    | cons c r2 =>
      cases i with
      | zero => rfl
      | succ j =>
        simp only [List.zipWith_cons_cons, List.getD_cons_succ]
        exact ih r2 j (by simpa using h1) (by simpa using h2)

theorem getD_of_length_le {α : Type} (l : List α) (i : Nat) (d : α)
    (h : l.length ≤ i) : l.getD i d = d := by
  rw [List.getD_eq_getElem?_getD, List.getElem?_eq_none h]
  rfl

theorem widthL_cellAt_fixRow (ws : List Nat) (r : List (List Char)) (i : Nat)
    (hi : i < ws.length) :
    displayWidthL (cellAt (fixRow ws r) i) = displayWidthL (cellAt r i) := by
  unfold cellAt fixRow
  by_cases hr : i < r.length
  · rw [getD_zipWith_fixCell ws r i hi hr]
    exact fixCell_width _ _
  · rw [getD_of_length_le r i [] (by omega),
      getD_of_length_le (List.zipWith fixCell ws r) i []
        (by rw [List.length_zipWith]; omega)]

theorem targetWidths_length (t : MarkdownTableM) :
    (targetWidths t).length = numCols t := by
  unfold targetWidths
  rw [List.length_map, List.length_range]

theorem numCols_fixTable (t : MarkdownTableM) : numCols (fixTable t) = numCols t := by
  unfold numCols fixTable
  cases ht : t.rows with
  | nil => rfl
  | cons h rest =>
    simp only [List.map_cons, List.headD_cons]
    unfold fixRow
    rw [List.length_zipWith]
    have hlen : (targetWidths t).length = h.length := by
      rw [targetWidths_length]
      unfold numCols
      rw [ht]
      rfl
    rw [hlen]
    simp

theorem maxColWidth_fixTable (t : MarkdownTableM) (i : Nat) (hi : i < numCols t) :
    maxColWidth (fixTable t) i = maxColWidth t i := by
  unfold maxColWidth fixTable
  simp only
  rw [List.foldl_map]
  have hfun : (fun (m : Nat) (r : List (List Char)) =>
      max m (displayWidthL (cellAt (fixRow (targetWidths t) r) i))) =
      (fun m r => max m (displayWidthL (cellAt r i))) := by
    funext m r
    rw [widthL_cellAt_fixRow (targetWidths t) r i (by rw [targetWidths_length]; exact hi)]
  rw [hfun]

theorem targetWidths_fixTable (t : MarkdownTableM) :
    targetWidths (fixTable t) = targetWidths t := by
  unfold targetWidths
  rw [numCols_fixTable]
  apply List.map_congr_left
  intro i hi
  rw [List.mem_range] at hi
  rw [maxColWidth_fixTable t i hi]

theorem fixRow_idem (ws : List Nat) :
    ∀ r : List (List Char), fixRow ws (fixRow ws r) = fixRow ws r := by
  induction ws with
  | nil => intro r; rfl
  | cons w ws ih =>
    intro r
    cases r with
    | nil => rfl
    | cons c r2 =>
      unfold fixRow
      simp only [List.zipWith_cons_cons]
      rw [fixCell_idem]
      exact congrArg _ (ih r2)

/-- Claim C2: the table fixer is idempotent — rewriting an already-rewritten
table changes nothing, each cell staying its trimmed content padded to the
stable target widths — and therefore fixing already-correctly-formatted
(previously fixed) input renders byte-identically. -/
theorem claim_C2 :
    ∀ t : MarkdownTableM,
      fixTable (fixTable t) = fixTable t ∧
      renderTable (fixTable (fixTable t)) = renderTable (fixTable t) := by
  intro t
  have h1 : fixTable (fixTable t) = fixTable t := by
    show MarkdownTableM.mk
      ((fixTable t).rows.map (fixRow (targetWidths (fixTable t))))
      (fixTable t).sepAlign = fixTable t
    rw [targetWidths_fixTable]
    show MarkdownTableM.mk
      ((t.rows.map (fixRow (targetWidths t))).map (fixRow (targetWidths t)))
      t.sepAlign = fixTable t
    rw [List.map_map]
    have hcomp : fixRow (targetWidths t) ∘ fixRow (targetWidths t) =
        fixRow (targetWidths t) := by
      funext r
      exact fixRow_idem _ r
    rw [hcomp]
    rfl
  exact ⟨h1, by rw [h1]⟩
